import Mathlib

/-!
Verification of the local-folder sync pipeline:
`common/data_source/local_folder_connector.py` (bulk connector) and
`example/local_folder_watcher.py` (live watcher).

The embedding is shallow: byte strings are `List Nat`, Python dicts are
association lists with Python's update-in-place / delete semantics, the
generator-based batch loops are structural recursions over the file list,
and external library calls (hashlib, fnmatch, os.path helpers, mimetypes,
the HTTP client) are abstract function parameters gathered in `Lib` /
`Env`, since their code is not part of this repository.
-/

/-- Byte strings (file contents): each element is one byte value. -/
abbrev Bytes := List Nat

/-! ## Python dict model

Python dicts keyed by strings, as association lists. A well-formed dict
has at most one entry per key (`dCount k d ≤ 1`); `dSet` updates the first
matching entry in place (insertion order is preserved, as in Python) and
`dDel` removes it. -/

/-- Python `d.get(k)`: the value of the first entry with key `k`. -/
def dGet {α : Type} (d : List (String × α)) (k : String) : Option α :=
  match d with
  | [] => none
  | (k', v) :: rest => if k' = k then some v else dGet rest k

/-- Python `d[k] = v`: replace the first entry with key `k` in place, or append. -/
def dSet {α : Type} (d : List (String × α)) (k : String) (v : α) :
    List (String × α) :=
  match d with
  | [] => [(k, v)]
  | (k', v') :: rest =>
      if k' = k then (k, v) :: rest else (k', v') :: dSet rest k v

/-- Python `del d[k]`: remove the first entry with key `k` (no-op when absent). -/
def dDel {α : Type} (d : List (String × α)) (k : String) :
    List (String × α) :=
  match d with
  | [] => []
  | (k', v') :: rest => if k' = k then rest else (k', v') :: dDel rest k

/-- Number of entries with key `k` (1 for every key of a Python dict). -/
def dCount {α : Type} (d : List (String × α)) (k : String) : Nat :=
  (d.filter (fun e => e.1 == k)).length

/-! ## External library functions

The source calls `hashlib`, `fnmatch`, `os.path` and `mimetypes`; those
libraries are outside the repository, so they enter the model as opaque
function parameters. `sha256hex s` stands for
`hashlib.sha256(bytes(s)).hexdigest()` applied to the byte string the hash
object has accumulated through its `update` calls. -/

structure Lib where
  /-- Library `hashlib.sha256(accumulated).hexdigest()`. -/
  sha256hex : Bytes → String
  /-- Library `hashlib.md5(s.encode()).hexdigest()`. -/
  md5hex : String → String
  /-- Library `os.path.basename`. -/
  basename : String → String
  /-- Library `os.path.relpath p root`. -/
  relpath : String → String → String
  /-- Helper `get_file_ext` (imported from `common.data_source.utils`). -/
  extOf : String → String
  /-- Library `mimetypes.guess_type(p)[0]` (`none` when the type is unknown). -/
  guessType : String → Option String
  /-- Library `fnmatch(os.path.basename(p), pattern)`. -/
  fnmatchName : String → String → Bool

/-! ## ContentFingerprinter
`LocalFolderConnector._compute_file_hash` (connector, lines 94-108). -/

/-- The sequence of blocks `f.read(4096)` returns until it yields `b""`:
the file content cut into 4096-byte chunks. -/
def readChunks (c : Bytes) : List Bytes :=
  if h : c = [] then []
  else c.take 4096 :: readChunks (c.drop 4096)
termination_by c.length
decreasing_by
  simp only [List.length_drop]
  have : 0 < c.length := List.length_pos.mpr h
  omega

/-- Model of `LocalFolderConnector._compute_file_hash`: feed each 4096-byte chunk to
the SHA-256 object via `update` (the object accumulates the bytes) and
return the hex digest of the accumulated bytes. The file path is opened
only to read the content `c`; the digest depends on nothing else. -/
def computeFileHash (L : Lib) (c : Bytes) : String :=
  L.sha256hex ((readChunks c).foldl (fun acc block => acc ++ block) [])

/-- Model of `FileChangeHandler._compute_file_hash` (watcher, lines 121-134):
character-for-character the same loop as the connector's. -/
def watcherComputeFileHash (L : Lib) (c : Bytes) : String :=
  L.sha256hex ((readChunks c).foldl (fun acc block => acc ++ block) [])

/-! ## Document construction
`LocalFolderConnector._create_document` (lines 197-261) and
`_get_mime_type` (lines 263-274). The `metadata` dict's fields are
flattened into the structure. -/

structure Document where
  id : String
  source : String
  semanticIdentifier : String
  extension : String
  blob : Bytes
  docUpdatedAt : Nat
  sizeBytes : Nat
  sourcePath : String
  relativePath : String
  folderPath : String
  fileSize : Nat
  mimeTypeMeta : String
  checksum : Option String
  checksumAlgorithm : Option String
deriving DecidableEq

/-- Model of `LocalFolderConnector._get_mime_type`. -/
def getMimeType (L : Lib) (filePath : String) : String :=
  (L.guessType filePath).getD "application/octet-stream"

/-- Model of `LocalFolderConnector._create_document` on a file whose stat and read
succeed: `c` is the byte content, `mtime`/`size` the stat results. -/
def createDocument (L : Lib) (computeHash : Bool) (folderPath filePath : String)
    (c : Bytes) (mtime size : Nat) : Document :=
  let docId :=
    if computeHash then "local_folder_" ++ computeFileHash L c
    else "local_folder_" ++ L.md5hex (L.relpath filePath folderPath)
  { id := docId
    source := "local_folder"
    semanticIdentifier := L.basename filePath
    extension := L.extOf filePath
    blob := c
    docUpdatedAt := mtime
    sizeBytes := size
    sourcePath := filePath
    relativePath := L.relpath filePath folderPath
    folderPath := folderPath
    fileSize := size
    mimeTypeMeta := getMimeType L filePath
    checksum := if computeHash then some (computeFileHash L c) else none
    checksumAlgorithm := if computeHash then some "SHA-256" else none }

/-- The UTF-8 bytes of `"hello"` (the §8 scenario's file content). -/
def helloBytes : Bytes := [104, 101, 108, 108, 111]

/-! ## PathFilter
`_should_include_file` (connector lines 110-124; the watcher's copy at
lines 105-119 is identical). -/

/-- Empty pattern list includes everything; otherwise the basename must
match at least one glob pattern. -/
def shouldIncludeFile (L : Lib) (patterns : List String) (p : String) : Bool :=
  if patterns.isEmpty then true
  else patterns.any (fun pat => L.fnmatchName p pat)

/-! ## FileEnumerator
`LocalFolderConnector._list_files` (lines 126-195). The filesystem the
call observes is a snapshot `EnumFS`; the two Python traversal library
calls are modelled by their documented semantics:
`os.walk` with its default `onerror=None` *ignores* a scandir failure
(an unreadable root yields no entries and no exception), while
`os.scandir` raises `OSError`, which the non-recursive branch turns into
`ConnectorValidationError`. -/

structure EnumFS where
  /-- The root directory is readable. -/
  rootOk : Bool
  /-- File paths `os.walk` yields over the tree, in traversal order. -/
  walkFiles : List String
  /-- The `os.scandir(root)` entries: `(entry.path, entry.is_file())`. -/
  topEntries : List (String × Bool)
  /-- Result of `os.path.getmtime` / `entry.stat().st_mtime`; `none` = `OSError`. -/
  mtimeOf : String → Option Nat

/-- The modification-time filter of `_list_files`: with no window every
file passes; with a window, a file whose mtime cannot be read is skipped
(the `except OSError: continue`), otherwise `start ≤ mtime ≤ end` must
hold (the two `continue`s on `mtime < start_time` / `mtime > end_time`). -/
def passesWindow (mt : String → Option Nat) (p : String)
    (startT endT : Option Nat) : Bool :=
  if startT.isSome || endT.isSome then
    match mt p with
    | none => false
    | some m =>
        (match startT with | none => true | some s => decide (s ≤ m)) &&
        (match endT with | none => true | some e => decide (m ≤ e))
  else true

/-- The recursive branch of `_list_files` (lines 138-163): `os.walk` over
the tree (nothing when the root is unreadable), keeping the files that
match the patterns and the window. -/
def listFilesRec (L : Lib) (fs : EnumFS) (patterns : List String)
    (startT endT : Option Nat) : List String :=
  (if fs.rootOk then fs.walkFiles else []).filter
    (fun p => shouldIncludeFile L patterns p &&
      passesWindow fs.mtimeOf p startT endT)

/-- The non-recursive branch of `_list_files` (lines 164-193): iterate
`os.scandir(root)`, keep regular files matching patterns and window; an
`OSError` from scandir is re-raised as `ConnectorValidationError`. -/
def listFiles (L : Lib) (fs : EnumFS) (recursive : Bool) (patterns : List String)
    (startT endT : Option Nat) : Except String (List String) :=
  if recursive then .ok (listFilesRec L fs patterns startT endT)
  else if fs.rootOk then
    .ok (((fs.topEntries.filter
      (fun ent => ent.2 && shouldIncludeFile L patterns ent.1 &&
        passesWindow fs.mtimeOf ent.1 startT endT)).map (fun ent => ent.1)))
  else .error "Cannot access directory"

/-! ## BatchEmitter
The batch loop shared by `load_from_state` (lines 288-307) and
`poll_source` (lines 335-354): append each document to `batch`, yield the
batch once `len(batch) >= batch_size`, yield the final partial batch. -/

/-- The loop over the documents that were constructed successfully,
starting from an already-accumulated `batch`. -/
def emitBatches (K : Nat) (batch : List Document) :
    List Document → List (List Document)
  | [] => if batch.isEmpty then [] else [batch]
  | d :: rest =>
      if K ≤ (batch ++ [d]).length then (batch ++ [d]) :: emitBatches K [] rest
      else emitBatches K (batch ++ [d]) rest

/-- The same loop over the file list: `_create_document` may raise
(`create f = none`), in which case the `except ... continue` skips the
file and the accumulated batch is untouched. -/
def processBatches (create : String → Option Document) (K : Nat) :
    List String → List Document → List (List Document)
  | [], batch => if batch.isEmpty then [] else [batch]
  | f :: fs, batch =>
      match create f with
      | none => processBatches create K fs batch
      | some d =>
          if K ≤ (batch ++ [d]).length then
            (batch ++ [d]) :: processBatches create K fs []
          else processBatches create K fs (batch ++ [d])

/-- Model of `LocalFolderConnector.load_from_state` (lines 276-307): list all
files (`files` is the `_list_files()` result) and batch the documents. -/
def loadFromState (create : String → Option Document) (files : List String)
    (K : Nat) : List (List Document) :=
  processBatches create K files []

/-- Model of `LocalFolderConnector.poll_source` (lines 309-354): list the files
modified in `[start, end]` and run the same batch loop; a root failure in
`_list_files` propagates out of the generator. -/
def pollSource (create : String → Option Document) (L : Lib) (fs : EnumFS)
    (recursive : Bool) (patterns : List String) (K : Nat)
    (start finish : Nat) : Except String (List (List Document)) :=
  (listFiles L fs recursive patterns (some start) (some finish)).map
    (fun files => processBatches create K files [])

/-! ## Live watcher
`FileChangeHandler` (`example/local_folder_watcher.py`). Its state is the
two dicts `file_hashes` (path → last uploaded fingerprint) and
`pending_changes` (path → time of the last raw notification). The HTTP
upload and the filesystem reads are collaborator calls, modelled by the
oracle `Env`: `content p` is the byte content the watcher would read from
`p` (`none` when opening/reading raises, e.g. the file is gone),
`mtimeOf`/`sizeOf` the stat results used for metadata, and `uploadOk p`
whether `POST /v1/document/upload` returns status 200 (`false` covers
both a non-200 response and a raised request exception). -/

structure WatchState where
  fileHashes : List (String × String)
  pending : List (String × Nat)
deriving DecidableEq

structure Env where
  sha : Lib
  content : String → Option Bytes
  mtimeOf : String → Nat
  sizeOf : String → Nat
  uploadOk : String → Bool

/-- What one `requests.post` upload carries: the path's basename and
content plus the metadata checksum and modification time. -/
structure Upload where
  path : String
  checksum : String
  mtime : Nat
  body : Bytes
deriving DecidableEq

/-- Model of `FileChangeHandler._sync_file_to_ragflow` (lines 161-219) on one
path: hash the current content, return untouched when the tracked hash
equals it, otherwise attempt exactly one upload, and commit the new hash
into `file_hashes` only when the upload reports success. A read failure
(`content = none`) raises inside the `try` and is caught: no upload, no
state change. Returns the new `file_hashes` and the uploads attempted. -/
def syncFileToRagflow (env : Env) (fileHashes : List (String × String))
    (p : String) : List (String × String) × List Upload :=
  match env.content p with
  | none => (fileHashes, [])
  | some c =>
      let fileHash := watcherComputeFileHash env.sha c
      if dGet fileHashes p = some fileHash then (fileHashes, [])
      else
        let up : Upload := ⟨p, watcherComputeFileHash env.sha c, env.mtimeOf p, c⟩
        if env.uploadOk p then (dSet fileHashes p fileHash, [up])
        else (fileHashes, [up])

/-- Model of `FileChangeHandler._handle_file_change` (lines 221-241):
a notification for a vanished path only deletes its tracked hash (the
pending record, if any, is left as it is); a directory or a
pattern-excluded path is ignored; otherwise the path's pending timestamp
is set to `now` (updated in place when already pending). -/
def handleFileChange (L : Lib) (patterns : List String) (st : WatchState)
    (p : String) (fsExists isFile : Bool) (now : Nat) : WatchState :=
  if !fsExists then
    { st with fileHashes :=
        if (dGet st.fileHashes p).isSome then dDel st.fileHashes p
        else st.fileHashes }
  else if !isFile then st
  else if !(shouldIncludeFile L patterns p) then st
  else { st with pending := dSet st.pending p now }

/-- Model of `FileChangeHandler.process_pending_changes` (lines 242-253): collect
the paths whose debounce period has elapsed (`now - change_time >=
debounce_seconds`), delete each from `pending_changes`, then run
`_sync_file_to_ragflow` once per released path. Returns the new state,
the released paths, and the uploads attempted. -/
def processPendingChanges (env : Env) (debounce : Nat) (st : WatchState)
    (now : Nat) : WatchState × List String × List Upload :=
  let ready := (st.pending.filter
    (fun e => decide (debounce ≤ now - e.2))).map (fun e => e.1)
  let pending' := ready.foldl (fun d q => dDel d q) st.pending
  let step := fun (acc : List (String × String) × List Upload) (q : String) =>
    let r := syncFileToRagflow env acc.1 q
    (r.1, acc.2 ++ r.2)
  let fin := ready.foldl step (st.fileHashes, [])
  (⟨fin.1, pending'⟩, ready, fin.2)

/-- The fold of one notification per element of `ts` (each with the file
present, regular and pattern-included) into the watcher state: the raw
burst of events the debounce coalescer absorbs for path `p`. -/
def notifyAll (L : Lib) (patterns : List String) (p : String)
    (ts : List Nat) (st : WatchState) : WatchState :=
  ts.foldl (fun s t => handleFileChange L patterns s p true true t) st

/-- How many times path `p` is released (hence synced) across a sequence
of drain cycles run at the times `ds`. -/
def countReleases (env : Env) (debounce : Nat) (st : WatchState)
    (ds : List Nat) (p : String) : Nat :=
  match ds with
  | [] => 0
  | d :: rest =>
      let r := processPendingChanges env debounce st d
      r.2.1.count p + countReleases env debounce r.1 rest p

/-! ## Connector construction and path validation
`LocalFolderConnector.__init__` (lines 38-68) sets
`folder_path = os.path.abspath(folder_path)`,
`allowed_base_path = os.path.abspath(allowed_base_path)` and raises
`ConnectorValidationError` unless
`folder_path.startswith(allowed_base_path)` — a *string* prefix test.
`os.path.abspath` on an absolute path is `os.path.normpath`, modelled
here concretely on character lists by its documented semantics: split on
`/`, drop empty and `.` components, resolve `..` against the collected
prefix, rejoin with a leading `/`. -/

/-- Split a character list on `/`. -/
def splitSlash : List Char → List (List Char)
  | [] => [[]]
  | c :: rest =>
      match splitSlash rest with
      | [] => [[]]
      | cur :: parts =>
          if c = '/' then [] :: cur :: parts else (c :: cur) :: parts

/-- Resolve `.`/`..`/empty components left to right, as
`os.path.normpath` does for absolute paths (a leading `..` is dropped at
the root). -/
def normComponents (parts : List (List Char)) : List (List Char) :=
  parts.foldl
    (fun acc comp =>
      if comp = [] then acc
      else if comp = ['.'] then acc
      else if comp = ['.', '.'] then acc.dropLast
      else acc ++ [comp]) []

/-- Model of `os.path.abspath` on an absolute path: the normalized components
joined with `/` under a leading `/`. -/
def absNorm (p : List Char) : List Char :=
  '/' :: List.intercalate ['/'] (normComponents (splitSlash p))

/-- The validation test of `LocalFolderConnector.__init__`: construction
succeeds iff the absolutized folder path *string* starts with the
absolutized allowed base path string
(`self.folder_path.startswith(self.allowed_base_path)`). -/
def connectorInitAccepts (folderPath allowedBase : List Char) : Bool :=
  (absNorm allowedBase).isPrefixOf (absNorm folderPath)

/-- Genuine directory containment: every component of the allowed base
is a leading component of the folder path. This is what "resolves under
the allowed prefix" means for paths. -/
def isUnderDir (folderPath allowedBase : List Char) : Bool :=
  (normComponents (splitSlash allowedBase)).isPrefixOf
    (normComponents (splitSlash folderPath))

/-- A sibling directory whose name merely extends the allowed prefix
string. -/
def evilFolderPath : List Char := "/ragflow/mounted_data_evil".data

/-- The connector's default `allowed_base_path`. -/
def defaultAllowedBase : List Char := "/ragflow/mounted_data".data

/-! ## Concrete instances used by witnesses and counterexamples -/

/-- A concrete `Lib` for witnesses: every abstract library function is a
trivial concrete function. -/
def exLib : Lib :=
  ⟨fun _ => "D", fun s => s, fun s => s, fun p _ => p, fun s => s,
   fun _ => none, fun _ _ => true⟩

/-- A concrete `Env` whose filesystem has no readable file and whose
uploads always succeed. -/
def exEnv : Env := ⟨exLib, fun _ => none, fun _ => 0, fun _ => 0, fun _ => true⟩

/-- A concrete document literal for counterexamples. -/
def exDoc : Document :=
  ⟨"local_folder_x", "local_folder", "a", "", [1], 0, 1, "/r/a", "a", "/r",
   1, "application/octet-stream", none, none⟩

/-! ## Chunk-folding lemma -/

theorem readChunks_foldl_append (n : Nat) :
    ∀ c : Bytes, c.length ≤ n →
      ∀ acc : Bytes, (readChunks c).foldl (fun a b => a ++ b) acc = acc ++ c := by
  induction n with
  | zero =>
      intro c hc acc
      have hc0 : c = [] := List.length_eq_zero.mp (Nat.le_zero.mp hc)
      subst hc0
      simp [readChunks]
  | succ n ih =>
      intro c hc acc
      rw [readChunks]
      by_cases h : c = []
      · simp [h]
      · simp only [dif_neg h, List.foldl_cons]
        have hlt : (c.drop 4096).length ≤ n := by
          have hpos : 0 < c.length := List.length_pos.mpr h
          simp only [List.length_drop]
          omega
        rw [ih (c.drop 4096) hlt (acc ++ c.take 4096), List.append_assoc,
          List.take_append_drop]

theorem computeFileHash_eq_sha (L : Lib) (c : Bytes) :
    computeFileHash L c = L.sha256hex c := by
  unfold computeFileHash
  rw [readChunks_foldl_append c.length c (Nat.le_refl _) []]
  rfl

/-- C1: the fingerprint is the SHA-256 digest of the full byte content,
reassembled from the fixed 4096-byte read chunks. It depends only on the
content: the connector and the watcher compute the same digest, two files
with equal content get equal document checksums whatever their paths, and
the §8 document built for content `"hello"` carries checksum
SHA-256("hello"). -/
theorem fingerprint_is_full_content_sha256 (L : Lib) :
    (∀ c : Bytes, computeFileHash L c = L.sha256hex c) ∧
    (∀ c : Bytes, watcherComputeFileHash L c = computeFileHash L c) ∧
    (∀ (fp₁ fp₂ p₁ p₂ : String) (c : Bytes) (m₁ m₂ s₁ s₂ : Nat),
      (createDocument L true fp₁ p₁ c m₁ s₁).checksum =
        (createDocument L true fp₂ p₂ c m₂ s₂).checksum) ∧
    (∀ (fp p : String) (m s : Nat),
      (createDocument L true fp p helloBytes m s).checksum =
        some (L.sha256hex helloBytes)) := by
  refine ⟨computeFileHash_eq_sha L, fun c => rfl, ?_, ?_⟩
  · intro fp₁ fp₂ p₁ p₂ c m₁ m₂ s₁ s₂
    simp [createDocument]
  · intro fp p m s
    simp [createDocument, computeFileHash_eq_sha]

/-! ## Batch-structure lemmas -/

theorem processBatches_eq_emitBatches (create : String → Option Document)
    (K : Nat) : ∀ (files : List String) (batch : List Document),
    processBatches create K files batch =
      emitBatches K batch (files.filterMap create) := by
  intro files
  induction files with
  | nil => intro batch; rfl
  | cons f fs ih =>
      intro batch
      rw [processBatches, List.filterMap_cons]
      cases h : create f with
      | none => simpa using ih batch
      | some d =>
          simp only [emitBatches]
          by_cases hK : K ≤ (batch ++ [d]).length
          · simp [hK, ih]
          · simp [hK, ih]

theorem emitBatches_flatten (K : Nat) : ∀ (docs batch : List Document),
    (emitBatches K batch docs).flatten = batch ++ docs := by
  intro docs
  induction docs with
  | nil =>
      intro batch
      by_cases h : batch.isEmpty
      · simp [emitBatches, h, List.isEmpty_iff.mp h]
      · simp [emitBatches, h]
  | cons d rest ih =>
      intro batch
      rw [emitBatches]
      by_cases hK : K ≤ (batch ++ [d]).length
      · rw [if_pos hK, List.flatten_cons, ih []]
        simp
      · rw [if_neg hK, ih (batch ++ [d])]
        simp

theorem emitBatches_length (K : Nat) (hK : 0 < K) :
    ∀ (docs batch : List Document), batch.length < K →
    (emitBatches K batch docs).length = (batch.length + docs.length + K - 1) / K := by
  intro docs
  induction docs with
  | nil =>
      intro batch hb
      by_cases h : batch.isEmpty
      · have hb0 : batch = [] := List.isEmpty_iff.mp h
        subst hb0
        rw [emitBatches, if_pos List.isEmpty_nil]
        have : (0 + 0 + K - 1) / K = 0 := Nat.div_eq_of_lt (by omega)
        simpa using this.symm
      · have hne : batch ≠ [] := fun hh => h (by simp [hh])
        have hpos : 0 < batch.length := List.length_pos.mpr hne
        rw [emitBatches, if_neg (by simpa using h)]
        have h1 : 1 * K ≤ batch.length + ([] : List Document).length + K - 1 := by
          simp only [List.length_nil]
          omega
        have h2 : batch.length + ([] : List Document).length + K - 1 < (1 + 1) * K := by
          simp only [List.length_nil]
          omega
        rw [(Nat.div_eq_of_lt_le h1 h2 : _ = 1)]
        rfl
  | cons d rest ih =>
      intro batch hb
      rw [emitBatches]
      have hlen1 : (batch ++ [d]).length = batch.length + 1 := by simp
      by_cases hK2 : K ≤ (batch ++ [d]).length
      · rw [if_pos hK2, List.length_cons, ih [] (by simpa using hK)]
        have hlen : batch.length + 1 = K := by omega
        have harith : batch.length + (d :: rest).length + K - 1 =
            ([] : List Document).length + rest.length + K - 1 + K := by
          simp only [List.length_nil, List.length_cons]
          omega
        rw [harith, Nat.add_div_right _ hK]
      · rw [if_neg hK2, ih (batch ++ [d]) (by omega), hlen1]
        congr 1
        simp only [List.length_cons]
        omega

theorem emitBatches_dropLast (K : Nat) (hK : 0 < K) :
    ∀ (docs batch : List Document), batch.length < K →
    ∀ b ∈ (emitBatches K batch docs).dropLast, b.length = K := by
  intro docs
  induction docs with
  | nil =>
      intro batch hb b hbmem
      by_cases h : batch.isEmpty <;> simp [emitBatches, h] at hbmem
  | cons d rest ih =>
      intro batch hb b hbmem
      rw [emitBatches] at hbmem
      have hlen1 : (batch ++ [d]).length = batch.length + 1 := by simp
      by_cases hK2 : K ≤ (batch ++ [d]).length
      · rw [if_pos hK2] at hbmem
        cases htail : emitBatches K [] rest with
        | nil => rw [htail] at hbmem; simp at hbmem
        | cons x xs =>
            rw [htail, List.dropLast_cons₂, List.mem_cons] at hbmem
            cases hbmem with
            | inl hb1 =>
                subst hb1
                omega
            | inr hb2 =>
                have := ih [] (by simpa using hK) b
                rw [htail] at this
                exact this hb2
      · rw [if_neg hK2] at hbmem
        exact ih (batch ++ [d]) (by omega) b hbmem

theorem emitBatches_ne_nil (K : Nat) : ∀ (docs batch : List Document),
    batch ≠ [] ∨ docs ≠ [] → emitBatches K batch docs ≠ [] := by
  intro docs
  induction docs with
  | nil =>
      intro batch hne
      have hb : batch ≠ [] := by
        cases hne with
        | inl h => exact h
        | inr h => exact absurd rfl h
      simp [emitBatches, hb]
  | cons d rest ih =>
      intro batch _
      rw [emitBatches]
      by_cases hK2 : K ≤ (batch ++ [d]).length
      · rw [if_pos hK2]
        exact List.cons_ne_nil _ _
      · rw [if_neg hK2]
        exact ih (batch ++ [d]) (Or.inl (by simp))

theorem emitBatches_getLast? (K : Nat) (hK : 0 < K) :
    ∀ (docs batch : List Document), batch.length < K →
    (emitBatches K batch docs).getLast?.map List.length =
      if batch.length + docs.length = 0 then none
      else some ((batch.length + docs.length - 1) % K + 1) := by
  intro docs
  induction docs with
  | nil =>
      intro batch hb
      by_cases h : batch.isEmpty
      · have hb0 : batch = [] := List.isEmpty_iff.mp h
        subst hb0
        simp [emitBatches]
      · have hne : batch ≠ [] := fun hh => h (by simp [hh])
        have hpos : 0 < batch.length := List.length_pos.mpr hne
        rw [emitBatches, if_neg (by simpa using h)]
        rw [List.getLast?_singleton, Option.map_some']
        rw [if_neg (by simp only [List.length_nil]; omega)]
        have e1 : batch.length + ([] : List Document).length - 1 = batch.length - 1 := by
          simp only [List.length_nil]
          omega
        rw [e1, Nat.mod_eq_of_lt (by omega)]
        congr 1
        omega
  | cons d rest ih =>
      intro batch hb
      rw [emitBatches]
      have hlen1 : (batch ++ [d]).length = batch.length + 1 := by simp
      by_cases hK2 : K ≤ (batch ++ [d]).length
      · have hlen : batch.length + 1 = K := by omega
        rw [if_pos hK2]
        cases htail : emitBatches K [] rest with
        | nil =>
            have hrest : rest = [] := by
              by_contra hr
              exact emitBatches_ne_nil K rest [] (Or.inr hr) htail
            subst hrest
            rw [List.getLast?_singleton, Option.map_some']
            rw [if_neg (by simp)]
            have e1 : batch.length + ([d] : List Document).length - 1 =
                batch.length := by simp
            rw [e1, Nat.mod_eq_of_lt (by omega), hlen1]
        | cons x xs =>
            have hrest : rest ≠ [] := by
              intro hr
              subst hr
              simp [emitBatches] at htail
            rw [List.getLast?_cons_cons]
            have hih := ih [] (by simpa using hK)
            rw [htail] at hih
            rw [hih]
            have hrpos : 0 < rest.length := List.length_pos.mpr hrest
            rw [if_neg (by simp only [List.length_nil]; omega),
              if_neg (by simp only [List.length_cons]; omega)]
            congr 2
            simp only [List.length_nil, List.length_cons, Nat.zero_add]
            have h2 : batch.length + (rest.length + 1) - 1 =
                (rest.length - 1) + K := by omega
            rw [h2, Nat.add_mod_right]
      · rw [if_neg hK2, ih (batch ++ [d]) (by omega), hlen1]
        have h4 : batch.length + 1 + rest.length =
            batch.length + (d :: rest).length := by
          simp only [List.length_cons]
          omega
        rw [h4]

/-- Pure arithmetic: for `0 < M`, `(M - 1) % K + 1` is `M % K`, or `K`
when `K` divides `M`. -/
theorem lastSizeForm (K M : Nat) (hK : 0 < K) (hM : 0 < M) :
    (M - 1) % K + 1 = if M % K = 0 then K else M % K := by
  rcases Nat.eq_zero_or_pos (M % K) with h0 | hpos
  · rw [if_pos h0]
    obtain ⟨q, hq⟩ := Nat.dvd_of_mod_eq_zero h0
    have hq1 : 0 < q := by
      rcases Nat.eq_zero_or_pos q with hz | hz
      · subst hz; simp at hq; omega
      · exact hz
    have hKq : K ≤ K * q := Nat.le_mul_of_pos_right K hq1
    have h1 : M - 1 = (K - 1) + (q - 1) * K := by
      have e1 : (q - 1) * K = q * K - 1 * K := Nat.sub_mul q 1 K
      have e2 : q * K = K * q := Nat.mul_comm _ _
      omega
    rw [h1, Nat.add_mul_mod_self_right, Nat.mod_eq_of_lt (by omega)]
    omega
  · rw [if_neg (by omega)]
    have hmod := Nat.div_add_mod M K
    have hrK : M % K < K := Nat.mod_lt _ hK
    have h1 : M - 1 = (M % K - 1) + (M / K) * K := by
      have e2 : (M / K) * K = K * (M / K) := Nat.mul_comm _ _
      omega
    rw [h1, Nat.add_mul_mod_self_right, Nat.mod_eq_of_lt (by omega)]
    omega

/-- C2: with `batch_size = K > 0` and `M` successfully constructed
documents, the bulk generator yields `⌈M/K⌉` batches, all of size `K`
except possibly the last, whose size is `M mod K` (or `K` when `K ∣ M`),
in formation order (flattening the batches recovers the document
sequence); `poll_source` runs the identical loop on its time-filtered
file list. -/
theorem bulk_batches_complete (create : String → Option Document)
    (files : List String) (K : Nat) (hK : 0 < K) :
    (loadFromState create files K).length =
      ((files.filterMap create).length + K - 1) / K ∧
    (∀ b ∈ (loadFromState create files K).dropLast, b.length = K) ∧
    ((loadFromState create files K).getLast?.map List.length =
      if (files.filterMap create).length = 0 then none
      else some (if (files.filterMap create).length % K = 0 then K
                 else (files.filterMap create).length % K)) ∧
    (loadFromState create files K).flatten = files.filterMap create ∧
    (∀ (L : Lib) (fs : EnumFS) (recursive : Bool) (patterns : List String)
       (start finish : Nat) (fls : List String),
      listFiles L fs recursive patterns (some start) (some finish) = .ok fls →
      pollSource create L fs recursive patterns K start finish =
        .ok (loadFromState create fls K)) := by
  unfold loadFromState
  rw [processBatches_eq_emitBatches]
  refine ⟨?_, ?_, ?_, ?_, ?_⟩
  · rw [emitBatches_length K hK _ [] (by simpa using hK)]
    simp
  · intro b hb
    exact emitBatches_dropLast K hK _ [] (by simpa using hK) b hb
  · rw [emitBatches_getLast? K hK _ [] (by simpa using hK)]
    simp only [List.length_nil, Nat.zero_add]
    by_cases hM : (files.filterMap create).length = 0
    · rw [if_pos hM, if_pos hM]
    · rw [if_neg hM, if_neg hM,
        lastSizeForm K _ hK (Nat.pos_of_ne_zero hM)]
  · rw [emitBatches_flatten]
    simp
  · intro L fs recursive patterns start finish fls hls
    unfold pollSource
    rw [hls]
    rfl

/-- C2 witness: the theorem applied at `K = 2` over three files, one of
which fails to produce a document. -/
theorem bulk_batches_complete_witness :
    0 < 2 ∧
    ((loadFromState
        (fun f => if f = "bad" then none
          else some (createDocument
            ⟨fun _ => "D", fun s => s, fun s => s, fun p _ => p, fun s => s,
              fun _ => none, fun _ _ => true⟩ true "/r" f [1] 0 1))
        ["a", "bad", "b", "c"] 2).length = 2) := by
  constructor
  · decide
  · have h := (bulk_batches_complete
      (fun f => if f = "bad" then none
        else some (createDocument
          ⟨fun _ => "D", fun s => s, fun s => s, fun p _ => p, fun s => s,
            fun _ => none, fun _ _ => true⟩ true "/r" f [1] 0 1))
      ["a", "bad", "b", "c"] 2 (by decide)).1
    rw [h]
    rfl

theorem emitBatches_mem (K : Nat) (hK : 0 < K) :
    ∀ (docs batch : List Document), batch.length < K →
    ∀ b ∈ emitBatches K batch docs, b ≠ [] ∧ b.length ≤ K := by
  intro docs
  induction docs with
  | nil =>
      intro batch hb b hbmem
      by_cases h : batch.isEmpty
      · rw [emitBatches, if_pos h] at hbmem
        simp at hbmem
      · rw [emitBatches, if_neg h] at hbmem
        rw [List.mem_singleton] at hbmem
        subst hbmem
        exact ⟨fun hh => h (by simp [hh]), Nat.le_of_lt hb⟩
  | cons d rest ih =>
      intro batch hb b hbmem
      rw [emitBatches] at hbmem
      have hlen1 : (batch ++ [d]).length = batch.length + 1 := by simp
      by_cases hK2 : K ≤ (batch ++ [d]).length
      · rw [if_pos hK2, List.mem_cons] at hbmem
        cases hbmem with
        | inl hb1 =>
            subst hb1
            exact ⟨by simp, by omega⟩
        | inr hb2 => exact ih [] (by simpa using hK) b hb2
      · rw [if_neg hK2] at hbmem
        exact ih (batch ++ [d]) (by omega) b hbmem

/-- C10: every yielded batch is non-empty and holds at most `batch_size`
documents; a file whose document construction fails is skipped without
contributing to, aborting, or padding any batch (the output equals the
emitter run on the successful documents alone), and when no document is
constructed successfully, no batch is yielded — in `poll_source` just as
in `load_from_state`. -/
theorem batches_nonempty_and_bounded (create : String → Option Document)
    (files : List String) (K : Nat) (hK : 0 < K) :
    (∀ b ∈ loadFromState create files K, b ≠ [] ∧ b.length ≤ K) ∧
    loadFromState create files K = emitBatches K [] (files.filterMap create) ∧
    (files.filterMap create = [] → loadFromState create files K = []) ∧
    (∀ (L : Lib) (fs : EnumFS) (recursive : Bool) (patterns : List String)
       (start finish : Nat) (bs : List (List Document)),
      pollSource create L fs recursive patterns K start finish = .ok bs →
      ∀ b ∈ bs, b ≠ [] ∧ b.length ≤ K) := by
  have hbridge := processBatches_eq_emitBatches create K files []
  refine ⟨?_, hbridge, ?_, ?_⟩
  · intro b hb
    rw [loadFromState, hbridge] at hb
    exact emitBatches_mem K hK _ [] (by simpa using hK) b hb
  · intro hempty
    rw [loadFromState, hbridge, hempty]
    rfl
  · intro L fs recursive patterns start finish bs hpoll b hb
    unfold pollSource at hpoll
    cases hls : listFiles L fs recursive patterns (some start) (some finish) with
    | error e => rw [hls] at hpoll; exact absurd hpoll (by simp [Except.map])
    | ok fls =>
        rw [hls] at hpoll
        simp only [Except.map, Except.ok.injEq] at hpoll
        subst hpoll
        rw [processBatches_eq_emitBatches] at hb
        exact emitBatches_mem K hK _ [] (by simpa using hK) b hb

/-- C10 witness: at `K = 1` over one failing and one succeeding file. -/
theorem batches_nonempty_and_bounded_witness :
    0 < 1 ∧
    (∀ b ∈ loadFromState
        (fun f => if f = "bad" then none
          else some (createDocument exLib true "/r" f [1] 0 1))
        ["bad", "a"] 1, b ≠ [] ∧ b.length ≤ 1) :=
  ⟨by decide,
   (batches_nonempty_and_bounded
      (fun f => if f = "bad" then none
        else some (createDocument exLib true "/r" f [1] 0 1))
      ["bad", "a"] 1 (by decide)).1⟩

/-- C9 counterexample: `load_from_state` holds no tracked fingerprint
state — its inputs are only the file list, the document constructor and
the batch size, so a second run over an unchanged tree is the very same
call and returns the very same batches. With one file producing `exDoc`
and `batch_size = 1`, the (second) run yields `[[exDoc]]`, not zero
documents as the claim requires. -/
theorem bulk_second_run_not_empty :
    loadFromState (fun _ => some exDoc) ["a"] 1 = [[exDoc]] ∧
    loadFromState (fun _ => some exDoc) ["a"] 1 ≠ [] := by
  constructor
  · rfl
  · intro h
    simp [loadFromState, processBatches] at h

/-- C9 amended: bulk-mode sync is deterministic but not idempotent in the
claim's sense — it keeps no tracked state across runs, so a second run
over an unchanged tree re-emits every successfully constructed document
(the flattened output is again exactly the document list, and it is
non-empty whenever any document is constructed), rather than emitting
zero documents. -/
theorem bulk_rerun_reemits_all (create : String → Option Document)
    (files : List String) (K : Nat) (hK : 0 < K) :
    (loadFromState create files K).flatten = files.filterMap create ∧
    (files.filterMap create ≠ [] → loadFromState create files K ≠ []) := by
  have hflat : (loadFromState create files K).flatten = files.filterMap create := by
    rw [loadFromState, processBatches_eq_emitBatches, emitBatches_flatten]
    rfl
  refine ⟨hflat, ?_⟩
  intro hne hnil
  rw [hnil] at hflat
  exact hne hflat.symm

/-- C9 witness: one file, `K = 1`; the rerun's flattening is the full
document list again. -/
theorem bulk_rerun_reemits_all_witness :
    0 < 1 ∧
    (loadFromState (fun _ => some exDoc) ["a"] 1).flatten =
      (["a"].filterMap (fun _ => some exDoc)) :=
  ⟨by decide, (bulk_rerun_reemits_all (fun _ => some exDoc) ["a"] 1 (by decide)).1⟩

/-! ## Dict lemmas -/

theorem dGet_dSet_self {α : Type} (d : List (String × α)) (p : String) (v : α) :
    dGet (dSet d p v) p = some v := by
  induction d with
  | nil => simp [dGet, dSet]
  | cons e rest ih =>
      obtain ⟨k, w⟩ := e
      rw [dSet]
      by_cases h : k = p
      · rw [if_pos h, dGet, if_pos rfl]
      · rw [if_neg h, dGet, if_neg h]
        exact ih

theorem dGet_dSet_ne {α : Type} (d : List (String × α)) (p q : String) (v : α)
    (h : p ≠ q) : dGet (dSet d p v) q = dGet d q := by
  induction d with
  | nil => simp [dGet, dSet, h]
  | cons e rest ih =>
      obtain ⟨k, w⟩ := e
      rw [dSet]
      by_cases hk : k = p
      · rw [if_pos hk, dGet, if_neg h, dGet, if_neg (hk ▸ h)]
      · rw [if_neg hk, dGet, dGet]
        by_cases hq : k = q
        · rw [if_pos hq, if_pos hq]
        · rw [if_neg hq, if_neg hq]
          exact ih

theorem dCount_cons {α : Type} (k : String) (w : α) (rest : List (String × α))
    (p : String) :
    dCount ((k, w) :: rest) p = (if k = p then 1 else 0) + dCount rest p := by
  rw [dCount, List.filter_cons]
  by_cases hk : k = p
  · rw [if_pos (show ((k, w).1 == p) = true by simpa using hk), if_pos hk,
      List.length_cons, dCount]
    omega
  · rw [if_neg (show ¬ ((k, w).1 == p) = true by simpa using hk), if_neg hk,
      dCount]
    omega

theorem dCount_dSet_one {α : Type} (d : List (String × α)) (p : String) (v : α)
    (h : dCount d p ≤ 1) : dCount (dSet d p v) p = 1 := by
  induction d with
  | nil => simp [dSet, dCount_cons, dCount]
  | cons e rest ih =>
      obtain ⟨k, w⟩ := e
      rw [dCount_cons] at h
      rw [dSet]
      by_cases hk : k = p
      · rw [if_pos hk, dCount_cons, if_pos rfl]
        rw [if_pos hk] at h
        have h0 : dCount rest p = 0 := by omega
        omega
      · rw [if_neg hk, dCount_cons, if_neg hk]
        rw [if_neg hk] at h
        have := ih (by omega)
        omega

theorem dGet_eq_none_of_dCount_zero {α : Type} (d : List (String × α))
    (p : String) (h : dCount d p = 0) : dGet d p = none := by
  induction d with
  | nil => rfl
  | cons e rest ih =>
      obtain ⟨k, w⟩ := e
      rw [dCount_cons] at h
      rw [dGet]
      by_cases hk : k = p
      · rw [if_pos hk] at h
        omega
      · rw [if_neg hk] at h ⊢
        exact ih (by omega)

theorem dCount_dDel_self {α : Type} (d : List (String × α)) (p : String)
    (h : dCount d p ≤ 1) : dCount (dDel d p) p = 0 := by
  induction d with
  | nil => rfl
  | cons e rest ih =>
      obtain ⟨k, w⟩ := e
      rw [dCount_cons] at h
      rw [dDel]
      by_cases hk : k = p
      · rw [if_pos hk]
        rw [if_pos hk] at h
        omega
      · rw [if_neg hk, dCount_cons, if_neg hk]
        rw [if_neg hk] at h
        have := ih (by omega)
        omega

theorem dGet_dDel_self {α : Type} (d : List (String × α)) (p : String)
    (h : dCount d p ≤ 1) : dGet (dDel d p) p = none :=
  dGet_eq_none_of_dCount_zero _ _ (dCount_dDel_self d p h)

theorem dGet_dDel_ne {α : Type} (d : List (String × α)) (p q : String)
    (h : q ≠ p) : dGet (dDel d q) p = dGet d p := by
  induction d with
  | nil => rfl
  | cons e rest ih =>
      obtain ⟨k, w⟩ := e
      rw [dDel]
      by_cases hk : k = q
      · rw [if_pos hk, dGet, if_neg (by rw [hk]; exact h)]
      · rw [if_neg hk, dGet, dGet]
        by_cases hp : k = p
        · rw [if_pos hp, if_pos hp]
        · rw [if_neg hp, if_neg hp]
          exact ih

theorem dCount_dDel_ne {α : Type} (d : List (String × α)) (p q : String)
    (h : q ≠ p) : dCount (dDel d q) p = dCount d p := by
  induction d with
  | nil => rfl
  | cons e rest ih =>
      obtain ⟨k, w⟩ := e
      rw [dDel]
      by_cases hk : k = q
      · rw [if_pos hk, dCount_cons, if_neg (by rw [hk]; exact h)]
        omega
      · rw [if_neg hk, dCount_cons, dCount_cons, ih]

theorem dCount_dDel_le {α : Type} (d : List (String × α)) (p q : String) :
    dCount (dDel d q) p ≤ dCount d p := by
  induction d with
  | nil => exact Nat.le_refl _
  | cons e rest ih =>
      obtain ⟨k, w⟩ := e
      rw [dDel]
      by_cases hk : k = q
      · rw [if_pos hk, dCount_cons]
        by_cases hp : k = p
        · rw [if_pos hp]
          omega
        · rw [if_neg hp]
          omega
      · rw [if_neg hk, dCount_cons, dCount_cons]
        omega

/-- C3: the watcher commits a path's fingerprint into `file_hashes` only
after the upload is acknowledged with status 200. One sync performs at
most one upload attempt (no synchronous retry); a read error changes
nothing and attempts nothing; on a delivery failure the whole map — in
particular the path's entry — is unchanged, so re-running the sync on the
next cycle with the same content classifies the path as changed again
and re-attempts exactly one upload; and any change to any entry of the
map implies the upload succeeded. -/
theorem commit_only_after_successful_upload (env : Env)
    (d : List (String × String)) (p : String) :
    ((syncFileToRagflow env d p).2.length ≤ 1) ∧
    (env.content p = none → syncFileToRagflow env d p = (d, [])) ∧
    (env.uploadOk p = false → (syncFileToRagflow env d p).1 = d) ∧
    (env.uploadOk p = false → ∀ c, env.content p = some c →
      dGet d p ≠ some (watcherComputeFileHash env.sha c) →
      (syncFileToRagflow env d p).2.length = 1 ∧
      (syncFileToRagflow env (syncFileToRagflow env d p).1 p).2.length = 1) ∧
    (∀ q, dGet (syncFileToRagflow env d p).1 q ≠ dGet d q →
      env.uploadOk p = true) ∧
    (∀ c, env.content p = some c → env.uploadOk p = true →
      dGet (syncFileToRagflow env d p).1 p =
        some (watcherComputeFileHash env.sha c)) := by
  have hattempt : ∀ c, env.content p = some c →
      dGet d p ≠ some (watcherComputeFileHash env.sha c) →
      (syncFileToRagflow env d p).2.length = 1 := by
    intro c hc hne
    by_cases hok : env.uploadOk p = true
    · simp [syncFileToRagflow, hc, hne, hok]
    · have hok' : env.uploadOk p = false := by
        cases h : env.uploadOk p
        · rfl
        · exact absurd h hok
      simp [syncFileToRagflow, hc, hne, hok']
  have hfail1 : env.uploadOk p = false → (syncFileToRagflow env d p).1 = d := by
    intro hok
    cases hc : env.content p with
    | none => simp [syncFileToRagflow, hc]
    | some c =>
        by_cases hsame : dGet d p = some (watcherComputeFileHash env.sha c)
        · simp [syncFileToRagflow, hc, hsame]
        · simp [syncFileToRagflow, hc, hsame, hok]
  refine ⟨?_, ?_, hfail1, ?_, ?_, ?_⟩
  · cases hc : env.content p with
    | none => simp [syncFileToRagflow, hc]
    | some c =>
        by_cases hsame : dGet d p = some (watcherComputeFileHash env.sha c)
        · simp [syncFileToRagflow, hc, hsame]
        · by_cases hok : env.uploadOk p = true
          · simp [syncFileToRagflow, hc, hsame, hok]
          · have hok' : env.uploadOk p = false := by
              cases h : env.uploadOk p
              · rfl
              · exact absurd h hok
            simp [syncFileToRagflow, hc, hsame, hok']
  · intro hc
    simp [syncFileToRagflow, hc]
  · intro hok c hc hne
    refine ⟨hattempt c hc hne, ?_⟩
    rw [hfail1 hok]
    exact hattempt c hc hne
  · intro q hq
    by_cases hok : env.uploadOk p = true
    · exact hok
    · have hok' : env.uploadOk p = false := by
        cases h : env.uploadOk p
        · rfl
        · exact absurd h hok
      exact absurd (by rw [hfail1 hok']) hq
  · intro c hc hok
    by_cases hsame : dGet d p = some (watcherComputeFileHash env.sha c)
    · have : (syncFileToRagflow env d p).1 = d := by
        simp [syncFileToRagflow, hc, hsame]
      rw [this]
      exact hsame
    · have : (syncFileToRagflow env d p).1 =
          dSet d p (watcherComputeFileHash env.sha c) := by
        simp [syncFileToRagflow, hc, hsame, hok]
      rw [this]
      exact dGet_dSet_self d p _

/-- C5: a path whose observed fingerprint equals the tracked one is left
alone — no upload (no Document) is ever delivered for it and the map is
unchanged — and the Unchanged-versus-Modified decision is fingerprint
equality alone: when the fingerprints differ an upload is attempted, and
two environments that agree on content, hashing and upload outcome (but
may report arbitrary different modification times) produce the same
committed map and the same number of upload attempts. -/
theorem unchanged_never_delivered (env : Env) (d : List (String × String))
    (p : String) :
    (∀ c, env.content p = some c →
      dGet d p = some (watcherComputeFileHash env.sha c) →
      syncFileToRagflow env d p = (d, [])) ∧
    (∀ c, env.content p = some c →
      dGet d p ≠ some (watcherComputeFileHash env.sha c) →
      (syncFileToRagflow env d p).2.length = 1) ∧
    (∀ env' : Env, env'.sha = env.sha → env'.content = env.content →
      env'.uploadOk = env.uploadOk →
      (syncFileToRagflow env' d p).1 = (syncFileToRagflow env d p).1 ∧
      (syncFileToRagflow env' d p).2.length =
        (syncFileToRagflow env d p).2.length) := by
  refine ⟨?_, ?_, ?_⟩
  · intro c hc hsame
    simp [syncFileToRagflow, hc, hsame]
  · intro c hc hne
    by_cases hok : env.uploadOk p = true
    · simp [syncFileToRagflow, hc, hne, hok]
    · have hok' : env.uploadOk p = false := by
        cases h : env.uploadOk p
        · rfl
        · exact absurd h hok
      simp [syncFileToRagflow, hc, hne, hok']
  · intro env' hsha hcont hup
    unfold syncFileToRagflow
    rw [hsha, hcont, hup]
    cases hc : env.content p with
    | none => exact ⟨rfl, rfl⟩
    | some c =>
        by_cases hsame : dGet d p = some (watcherComputeFileHash env.sha c)
        · constructor <;> simp [hsame]
        · by_cases hok : env.uploadOk p = true
          · constructor <;> simp [hsame, hok]
          · have hok' : env.uploadOk p = false := by
              cases h : env.uploadOk p
              · rfl
              · exact absurd h hok
            constructor <;> simp [hsame, hok']

/-! ## Debounce lemmas -/

theorem notifyAll_state (L : Lib) (patterns : List String) (p : String)
    (hinc : shouldIncludeFile L patterns p = true) :
    ∀ (ts : List Nat) (st : WatchState),
    (notifyAll L patterns p ts st).fileHashes = st.fileHashes ∧
    (notifyAll L patterns p ts st).pending =
      ts.foldl (fun d t => dSet d p t) st.pending := by
  intro ts
  induction ts with
  | nil => intro st; exact ⟨rfl, rfl⟩
  | cons t rest ih =>
      intro st
      have hstep : handleFileChange L patterns st p true true t =
          { st with pending := dSet st.pending p t } := by
        simp [handleFileChange, hinc]
      unfold notifyAll at ih ⊢
      rw [List.foldl_cons, List.foldl_cons, hstep]
      exact ih _

theorem foldl_dSet_dGet (p : String) : ∀ (ts : List Nat)
    (d : List (String × Nat)), ts ≠ [] →
    dGet (ts.foldl (fun acc t => dSet acc p t) d) p = ts.getLast? := by
  intro ts
  induction ts with
  | nil => intro d h; exact absurd rfl h
  | cons t rest ih =>
      intro d _
      rw [List.foldl_cons]
      cases rest with
      | nil => rw [List.foldl_nil, List.getLast?_singleton, dGet_dSet_self]
      | cons t' rest' =>
          rw [List.getLast?_cons_cons]
          exact ih (dSet d p t) (by simp)

theorem foldl_dSet_dCount (p : String) : ∀ (ts : List Nat)
    (d : List (String × Nat)), dCount d p ≤ 1 → ts ≠ [] →
    dCount (ts.foldl (fun acc t => dSet acc p t) d) p = 1 := by
  intro ts
  induction ts with
  | nil => intro d _ h; exact absurd rfl h
  | cons t rest ih =>
      intro d hc _
      rw [List.foldl_cons]
      cases rest with
      | nil => rw [List.foldl_nil]; exact dCount_dSet_one d p t hc
      | cons t' rest' =>
          exact ih (dSet d p t) (by rw [dCount_dSet_one d p t hc]) (by simp)

theorem not_key_of_dCount_zero {α : Type} (p : String) :
    ∀ (d : List (String × α)), dCount d p = 0 → ∀ e ∈ d, e.1 ≠ p := by
  intro d
  induction d with
  | nil => intro _ e he; simp at he
  | cons f rest ih =>
      obtain ⟨k, w⟩ := f
      intro h e he
      rw [dCount_cons] at h
      by_cases hk : k = p
      · rw [if_pos hk] at h
        omega
      · rw [if_neg hk] at h
        rcases List.mem_cons.mp he with he1 | he2
        · subst he1; exact hk
        · exact ih (by omega) e he2

theorem dGet_value_unique {α : Type} (p : String) (t : α) :
    ∀ (d : List (String × α)), dGet d p = some t → dCount d p ≤ 1 →
    ∀ e ∈ d, e.1 = p → e.2 = t := by
  intro d
  induction d with
  | nil => intro _ _ e he; simp at he
  | cons f rest ih =>
      obtain ⟨k, w⟩ := f
      intro hget hc e he hep
      rw [dGet] at hget
      rw [dCount_cons] at hc
      by_cases hk : k = p
      · rw [if_pos hk] at hget hc
        injection hget with hget
        rcases List.mem_cons.mp he with he1 | he2
        · subst he1; exact hget
        · exact absurd hep (not_key_of_dCount_zero p rest (by omega) e he2)
      · rw [if_neg hk] at hget hc
        rcases List.mem_cons.mp he with he1 | he2
        · subst he1; exact absurd hep hk
        · exact ih hget (by omega) e he2 hep

theorem dGet_mem {α : Type} (p : String) (t : α) :
    ∀ (d : List (String × α)), dGet d p = some t → (p, t) ∈ d := by
  intro d
  induction d with
  | nil => intro h; exact absurd h (by simp [dGet])
  | cons f rest ih =>
      obtain ⟨k, w⟩ := f
      intro hget
      rw [dGet] at hget
      by_cases hk : k = p
      · rw [if_pos hk] at hget
        injection hget with hget
        subst hk hget
        exact List.mem_cons_self _ _
      · rw [if_neg hk] at hget
        exact List.mem_cons_of_mem _ (ih hget)

/-- The released paths of one drain: membership for a uniquely-pending
path is exactly "the debounce period has elapsed since its recorded
last-notification time". -/
theorem mem_ready_iff (d : List (String × Nat)) (p : String) (t : Nat)
    (debounce now : Nat) (hget : dGet d p = some t) (hc : dCount d p ≤ 1) :
    (p ∈ (d.filter (fun e => decide (debounce ≤ now - e.2))).map
      (fun e => e.1)) ↔ debounce ≤ now - t := by
  constructor
  · intro hmem
    obtain ⟨e, hein, hefst⟩ := List.mem_map.mp hmem
    obtain ⟨hed, hecond⟩ := List.mem_filter.mp hein
    have := dGet_value_unique p t d hget hc e hed hefst
    rw [← this]
    exact of_decide_eq_true hecond
  · intro hcond
    refine List.mem_map.mpr ⟨(p, t), List.mem_filter.mpr ⟨dGet_mem p t d hget, ?_⟩, rfl⟩
    exact decide_eq_true hcond

theorem count_ready_le (d : List (String × Nat)) (p : String)
    (debounce now : Nat) :
    List.count p ((d.filter (fun e => decide (debounce ≤ now - e.2))).map
      (fun e => e.1)) ≤ dCount d p := by
  induction d with
  | nil => simp [dCount]
  | cons f rest ih =>
      obtain ⟨k, w⟩ := f
      rw [dCount_cons, List.filter_cons]
      by_cases hcond : (decide (debounce ≤ now - (k, w).2) = true)
      · rw [if_pos hcond, List.map_cons]
        rw [List.count_cons]
        by_cases hk : k = p
        · rw [if_pos (by simpa using hk), if_pos hk]
          omega
        · rw [if_neg (by simpa using hk), if_neg hk]
          omega
      · rw [if_neg hcond]
        by_cases hk : k = p
        · rw [if_pos hk]
          omega
        · rw [if_neg hk]
          omega

theorem foldl_dDel_not_mem (p : String) : ∀ (ks : List String)
    (d : List (String × Nat)), p ∉ ks →
    dGet (ks.foldl (fun acc q => dDel acc q) d) p = dGet d p ∧
    dCount (ks.foldl (fun acc q => dDel acc q) d) p = dCount d p := by
  intro ks
  induction ks with
  | nil => intro d _; exact ⟨rfl, rfl⟩
  | cons k rest ih =>
      intro d hnm
      have hk : k ≠ p := fun h => hnm (h ▸ List.mem_cons_self _ _)
      have hrest : p ∉ rest := fun h => hnm (List.mem_cons_of_mem _ h)
      rw [List.foldl_cons]
      obtain ⟨h1, h2⟩ := ih (dDel d k) hrest
      exact ⟨h1.trans (dGet_dDel_ne d p k hk),
             h2.trans (dCount_dDel_ne d p k hk)⟩

theorem foldl_dDel_le (p : String) : ∀ (ks : List String)
    (d : List (String × Nat)),
    dCount (ks.foldl (fun acc q => dDel acc q) d) p ≤ dCount d p := by
  intro ks
  induction ks with
  | nil => intro d; exact Nat.le_refl _
  | cons k rest ih =>
      intro d
      rw [List.foldl_cons]
      exact Nat.le_trans (ih (dDel d k)) (dCount_dDel_le d p k)

theorem foldl_dDel_mem (p : String) : ∀ (ks : List String)
    (d : List (String × Nat)), dCount d p ≤ 1 → p ∈ ks →
    dCount (ks.foldl (fun acc q => dDel acc q) d) p = 0 := by
  intro ks
  induction ks with
  | nil => intro d _ h; simp at h
  | cons k rest ih =>
      intro d hc hmem
      rw [List.foldl_cons]
      by_cases hk : k = p
      · subst hk
        have h0 : dCount (dDel d k) k = 0 := dCount_dDel_self d k hc
        have := foldl_dDel_le k rest (dDel d k)
        omega
      · have hrest : p ∈ rest := by
          rcases List.mem_cons.mp hmem with h | h
          · exact absurd h.symm hk
          · exact h
        exact ih (dDel d k) (by rw [dCount_dDel_ne d p k hk]; exact hc) hrest

theorem countReleases_zero (env : Env) (debounce : Nat) (p : String) :
    ∀ (ds : List Nat) (st : WatchState), dCount st.pending p = 0 →
    countReleases env debounce st ds p = 0 := by
  intro ds
  induction ds with
  | nil => intro st _; rfl
  | cons dnow rest ih =>
      intro st hc
      rw [countReleases]
      have hrel : (processPendingChanges env debounce st dnow).2.1 =
          (st.pending.filter (fun e => decide (debounce ≤ dnow - e.2))).map
            (fun e => e.1) := rfl
      have hpend : (processPendingChanges env debounce st dnow).1.pending =
          ((st.pending.filter (fun e => decide (debounce ≤ dnow - e.2))).map
            (fun e => e.1)).foldl (fun acc q => dDel acc q) st.pending := rfl
      have hcount0 : List.count p (processPendingChanges env debounce st dnow).2.1 = 0 := by
        rw [hrel]
        have := count_ready_le st.pending p debounce dnow
        omega
      have hpend0 : dCount (processPendingChanges env debounce st dnow).1.pending p = 0 := by
        rw [hpend]
        have := foldl_dDel_le p
          ((st.pending.filter (fun e => decide (debounce ≤ dnow - e.2))).map
            (fun e => e.1)) st.pending
        omega
      rw [ih _ hpend0]
      omega

theorem countReleases_bound (env : Env) (debounce : Nat) (p : String) :
    ∀ (ds : List Nat) (st : WatchState), dCount st.pending p ≤ 1 →
    countReleases env debounce st ds p ≤ 1 ∧
    (∀ t, dGet st.pending p = some t → (∃ dd ∈ ds, debounce ≤ dd - t) →
      countReleases env debounce st ds p = 1) := by
  intro ds
  induction ds with
  | nil =>
      intro st _
      exact ⟨Nat.zero_le _, fun t _ h => by simp at h⟩
  | cons dnow rest ih =>
      intro st hc
      rw [countReleases]
      have hrel : (processPendingChanges env debounce st dnow).2.1 =
          (st.pending.filter (fun e => decide (debounce ≤ dnow - e.2))).map
            (fun e => e.1) := rfl
      have hpend : (processPendingChanges env debounce st dnow).1.pending =
          ((st.pending.filter (fun e => decide (debounce ≤ dnow - e.2))).map
            (fun e => e.1)).foldl (fun acc q => dDel acc q) st.pending := rfl
      by_cases hmem : p ∈ (st.pending.filter
          (fun e => decide (debounce ≤ dnow - e.2))).map (fun e => e.1)
      · have hcnt1 : List.count p (processPendingChanges env debounce st dnow).2.1 = 1 := by
          rw [hrel]
          have hle := count_ready_le st.pending p debounce dnow
          have hpos := List.count_pos_iff.mpr hmem
          omega
        have h0 : dCount (processPendingChanges env debounce st dnow).1.pending p = 0 := by
          rw [hpend]
          exact foldl_dDel_mem p _ st.pending hc hmem
        rw [countReleases_zero env debounce p rest _ h0]
        exact ⟨by omega, fun t _ _ => by omega⟩
      · have hcnt0 : List.count p (processPendingChanges env debounce st dnow).2.1 = 0 := by
          rw [hrel]
          exact List.count_eq_zero.mpr hmem
        have hsame := foldl_dDel_not_mem p _ st.pending hmem
        have hc' : dCount (processPendingChanges env debounce st dnow).1.pending p ≤ 1 := by
          rw [hpend, hsame.2]
          exact hc
        obtain ⟨ihle, iheq⟩ := ih (processPendingChanges env debounce st dnow).1 hc'
        constructor
        · omega
        · intro t hget hex
          obtain ⟨dd, hdd, hcond⟩ := hex
          rcases List.mem_cons.mp hdd with hdd1 | hdd2
          · subst hdd1
            exact absurd ((mem_ready_iff st.pending p t debounce dd hget hc).mpr hcond)
              hmem
          · have hget' : dGet (processPendingChanges env debounce st dnow).1.pending p =
                some t := by
              rw [hpend, hsame.1]
              exact hget
            rw [iheq t hget' ⟨dd, hdd2, hcond⟩]
            omega

/-- C4: a burst of `N ≥ 1` raw notifications for one included, existing
regular file coalesces: each later notification only updates the path's
`last_event_time` in place, so afterwards the pending dict holds exactly
one record for the path, carrying the time of the *last* notification;
one drain releases the path iff `debounce ≤ now − last_event_time`, hence
(for a positive window) never sooner than `debounce` after the last
notification; and over any subsequent sequence of drain cycles the path
is released — and so synced — at most once, exactly once as soon as some
drain runs late enough. -/
theorem debounce_coalesces_burst (L : Lib) (patterns : List String)
    (p : String) (env : Env) (debounce : Nat) (st₀ : WatchState)
    (ts : List Nat)
    (hinc : shouldIncludeFile L patterns p = true)
    (hcount : dCount st₀.pending p ≤ 1)
    (hts : ts ≠ []) :
    dGet (notifyAll L patterns p ts st₀).pending p = ts.getLast? ∧
    dCount (notifyAll L patterns p ts st₀).pending p = 1 ∧
    (∀ t, ts.getLast? = some t →
      (∀ now, p ∈ (processPendingChanges env debounce
          (notifyAll L patterns p ts st₀) now).2.1 ↔ debounce ≤ now - t) ∧
      (0 < debounce → ∀ now, now < t + debounce →
        p ∉ (processPendingChanges env debounce
          (notifyAll L patterns p ts st₀) now).2.1) ∧
      (∀ ds : List Nat,
        countReleases env debounce (notifyAll L patterns p ts st₀) ds p ≤ 1) ∧
      (∀ ds : List Nat, (∃ dd ∈ ds, debounce ≤ dd - t) →
        countReleases env debounce (notifyAll L patterns p ts st₀) ds p = 1)) := by
  obtain ⟨hfh, hpend⟩ := notifyAll_state L patterns p hinc ts st₀
  have hget : dGet (notifyAll L patterns p ts st₀).pending p = ts.getLast? := by
    rw [hpend]
    exact foldl_dSet_dGet p ts st₀.pending hts
  have hcnt : dCount (notifyAll L patterns p ts st₀).pending p = 1 := by
    rw [hpend]
    exact foldl_dSet_dCount p ts st₀.pending hcount hts
  refine ⟨hget, hcnt, ?_⟩
  intro t hlast
  have hget' : dGet (notifyAll L patterns p ts st₀).pending p = some t := by
    rw [hget, hlast]
  have hiff : ∀ now, p ∈ (processPendingChanges env debounce
      (notifyAll L patterns p ts st₀) now).2.1 ↔ debounce ≤ now - t := by
    intro now
    have hrel : (processPendingChanges env debounce
        (notifyAll L patterns p ts st₀) now).2.1 =
        ((notifyAll L patterns p ts st₀).pending.filter
          (fun e => decide (debounce ≤ now - e.2))).map (fun e => e.1) := rfl
    rw [hrel]
    exact mem_ready_iff _ p t debounce now hget' (by omega)
  refine ⟨hiff, ?_, ?_, ?_⟩
  · intro hdpos now hlt hmem
    have := (hiff now).mp hmem
    omega
  · intro ds
    exact (countReleases_bound env debounce p ds _ (by omega)).1
  · intro ds hex
    exact (countReleases_bound env debounce p ds _ (by omega)).2 t hget' hex

/-- C4 witness: two notifications at times 3 and 4 for `"f"` with
`debounce = 2`, starting from the empty watcher state. -/
theorem debounce_coalesces_burst_witness :
    shouldIncludeFile exLib [] "f" = true ∧
    dCount (⟨[], []⟩ : WatchState).pending "f" ≤ 1 ∧
    ([3, 4] : List Nat) ≠ [] ∧
    (dGet (notifyAll exLib [] "f" [3, 4] ⟨[], []⟩).pending "f" =
        ([3, 4] : List Nat).getLast? ∧
      dCount (notifyAll exLib [] "f" [3, 4] ⟨[], []⟩).pending "f" = 1 ∧
      (∀ t, ([3, 4] : List Nat).getLast? = some t →
        (∀ now, "f" ∈ (processPendingChanges exEnv 2
            (notifyAll exLib [] "f" [3, 4] ⟨[], []⟩) now).2.1 ↔ 2 ≤ now - t) ∧
        (0 < 2 → ∀ now, now < t + 2 →
          "f" ∉ (processPendingChanges exEnv 2
            (notifyAll exLib [] "f" [3, 4] ⟨[], []⟩) now).2.1) ∧
        (∀ ds : List Nat,
          countReleases exEnv 2 (notifyAll exLib [] "f" [3, 4] ⟨[], []⟩) ds "f" ≤ 1) ∧
        (∀ ds : List Nat, (∃ dd ∈ ds, 2 ≤ dd - t) →
          countReleases exEnv 2 (notifyAll exLib [] "f" [3, 4] ⟨[], []⟩) ds "f" = 1))) :=
  ⟨by decide, by decide, by decide,
   debounce_coalesces_burst exLib [] "f" exEnv 2 ⟨[], []⟩ [3, 4]
     (by decide) (by decide) (by decide)⟩

/-- C6 counterexample: path `"f"` is pending (time 5) when a delete
notification arrives (time 6). `_handle_file_change` only deletes the
tracked hash and returns — there is no "deleted" intent to record and the
pending entry is NOT overwritten or removed — so the next drain (time
100) still releases `"f"`: a stale create/modify release does occur after
the delete was observed, contradicting the claim. -/
theorem delete_leaves_pending_release :
    (handleFileChange exLib []
        ⟨[("f", "h")], [("f", 5)]⟩ "f" false false 6).pending = [("f", 5)] ∧
    (handleFileChange exLib []
        ⟨[("f", "h")], [("f", 5)]⟩ "f" false false 6).fileHashes = [] ∧
    (processPendingChanges exEnv 2
      (handleFileChange exLib [] ⟨[("f", "h")], [("f", 5)]⟩ "f" false false 6)
      100).2.1 = ["f"] := by
  refine ⟨rfl, rfl, rfl⟩

/-- C6 amended: a delete notification for a pending path does not touch
the pending record (only the tracked hash entry for that path is
removed, other entries untouched); the path is therefore still released
at the next due drain — but the release is harmless when the file is
still gone: the sync attempt fails to read the file, delivers no upload
and leaves the hash map unchanged, and the pending record is consumed. -/
theorem delete_then_drain_harmless (L : Lib) (patterns : List String)
    (st : WatchState) (p : String) (b : Bool) (now t : Nat) (env : Env)
    (debounce now' : Nat)
    (hp : st.pending = [(p, t)])
    (hcf : dCount st.fileHashes p ≤ 1)
    (hnone : env.content p = none)
    (hdue : debounce ≤ now' - t) :
    ((handleFileChange L patterns st p false b now).pending = st.pending) ∧
    (dGet (handleFileChange L patterns st p false b now).fileHashes p = none) ∧
    (∀ q, q ≠ p →
      dGet (handleFileChange L patterns st p false b now).fileHashes q =
        dGet st.fileHashes q) ∧
    ((processPendingChanges env debounce
        (handleFileChange L patterns st p false b now) now').2.1 = [p]) ∧
    ((processPendingChanges env debounce
        (handleFileChange L patterns st p false b now) now').2.2 = []) ∧
    ((processPendingChanges env debounce
        (handleFileChange L patterns st p false b now) now').1.pending = []) ∧
    ((processPendingChanges env debounce
        (handleFileChange L patterns st p false b now) now').1.fileHashes =
      (handleFileChange L patterns st p false b now).fileHashes) := by
  have hstep : handleFileChange L patterns st p false b now =
      { st with fileHashes :=
          if (dGet st.fileHashes p).isSome then dDel st.fileHashes p
          else st.fileHashes } := by
    simp [handleFileChange]
  have hgetnone : dGet (handleFileChange L patterns st p false b now).fileHashes p
      = none := by
    rw [hstep]
    cases hg : dGet st.fileHashes p with
    | none => simp [hg]
    | some v =>
        simp only [hg, Option.isSome_some, if_pos]
        exact dGet_dDel_self st.fileHashes p hcf
  have hpend : (handleFileChange L patterns st p false b now).pending =
      st.pending := by rw [hstep]
  have hfilter : (handleFileChange L patterns st p false b now).pending.filter
      (fun e => decide (debounce ≤ now' - e.2)) = [(p, t)] := by
    rw [hpend, hp, List.filter_cons, if_pos (by simpa using hdue)]
    rfl
  have hready : (processPendingChanges env debounce
      (handleFileChange L patterns st p false b now) now').2.1 = [p] := by
    have : (processPendingChanges env debounce
        (handleFileChange L patterns st p false b now) now').2.1 =
        ((handleFileChange L patterns st p false b now).pending.filter
          (fun e => decide (debounce ≤ now' - e.2))).map (fun e => e.1) := rfl
    rw [this, hfilter]
    rfl
  have hupl : (processPendingChanges env debounce
      (handleFileChange L patterns st p false b now) now').2.2 =
      (((processPendingChanges env debounce
        (handleFileChange L patterns st p false b now) now').2.1).foldl
          (fun (acc : List (String × String) × List Upload) (q : String) =>
            ((syncFileToRagflow env acc.1 q).1,
              acc.2 ++ (syncFileToRagflow env acc.1 q).2))
          ((handleFileChange L patterns st p false b now).fileHashes, [])).2 := rfl
  have hfh : (processPendingChanges env debounce
      (handleFileChange L patterns st p false b now) now').1.fileHashes =
      (((processPendingChanges env debounce
        (handleFileChange L patterns st p false b now) now').2.1).foldl
          (fun (acc : List (String × String) × List Upload) (q : String) =>
            ((syncFileToRagflow env acc.1 q).1,
              acc.2 ++ (syncFileToRagflow env acc.1 q).2))
          ((handleFileChange L patterns st p false b now).fileHashes, [])).1 := rfl
  have hpd : (processPendingChanges env debounce
      (handleFileChange L patterns st p false b now) now').1.pending =
      (((handleFileChange L patterns st p false b now).pending.filter
        (fun e => decide (debounce ≤ now' - e.2))).map (fun e => e.1)).foldl
        (fun d q => dDel d q)
        (handleFileChange L patterns st p false b now).pending := rfl
  refine ⟨hpend, hgetnone, ?_, hready, ?_, ?_, ?_⟩
  · intro q hq
    rw [hstep]
    cases hg : dGet st.fileHashes p with
    | none => simp [hg]
    | some v =>
        simp only [hg, Option.isSome_some, if_pos]
        exact dGet_dDel_ne st.fileHashes q p (fun h => hq h.symm)
  · rw [hupl, hready]
    simp [syncFileToRagflow, hnone]
  · rw [hpd, hfilter, hpend, hp]
    simp [dDel]
  · rw [hfh, hready]
    simp [syncFileToRagflow, hnone]

/-- C6 witness: the amended theorem instantiated at the counterexample's
state ("f" pending at 5, deleted at 6, drained at 100 with the file still
missing): the drain attempts no upload. -/
theorem delete_then_drain_harmless_witness :
    (processPendingChanges exEnv 2
      (handleFileChange exLib [] ⟨[("f", "h")], [("f", 5)]⟩ "f" false false 6)
      100).2.2 = [] :=
  (delete_then_drain_harmless exLib [] ⟨[("f", "h")], [("f", 5)]⟩ "f" false 6 5
    exEnv 2 100 rfl (by decide) rfl (by decide)).2.2.2.2.1

theorem filter_drop_eq {α : Type} (pred q : α → Bool)
    (hpq : ∀ x, q x = false → pred x = false) (l : List α) :
    l.filter pred = (l.filter q).filter pred := by
  rw [List.filter_filter]
  apply List.filter_congr
  intro x _
  cases hq : q x with
  | false => rw [hpq x hq, Bool.false_and]
  | true => rw [Bool.and_true]

theorem passesWindow_none (mt : String → Option Nat) (p : String)
    (s e : Option Nat) (hw : (s.isSome || e.isSome) = true)
    (hm : mt p = none) : passesWindow mt p s e = false := by
  simp [passesWindow, hw, hm]

/-- C7 counterexample: a filesystem whose root directory is unreadable.
In recursive mode `_list_files` delegates to `os.walk`, whose default
`onerror=None` swallows the scandir failure, so the call returns an empty
success instead of failing: a directory-read failure on the root is NOT
fatal for the recursive enumeration, contrary to the claim. -/
theorem recursive_root_failure_not_fatal :
    listFiles exLib ⟨false, ["x"], [("x", true)], fun _ => none⟩ true []
      none none = Except.ok [] ∧
    ∀ msg : String,
      listFiles exLib ⟨false, ["x"], [("x", true)], fun _ => none⟩ true []
        none none ≠ Except.error msg := by
  refine ⟨rfl, ?_⟩
  intro msg h
  have h' : Except.ok ([] : List String) = Except.error msg := h
  exact Except.noConfusion h'

/-- C7 amended: a directory-read failure on the root is fatal
(`ConnectorValidationError`) only for the non-recursive enumeration; the
recursive enumeration swallows it (`os.walk` with default `onerror`) and
succeeds with an empty listing. A failure reading an individual entry's
modification time during a windowed scan only skips that entry — the
entry never appears in the result, and dropping the entry from the
snapshot leaves the result unchanged — and traversal continues in both
modes. -/
theorem root_failure_fatal_only_nonrecursive (L : Lib) (fs : EnumFS)
    (patterns : List String) (s e : Option Nat) :
    (fs.rootOk = false →
      listFiles L fs false patterns s e = Except.error "Cannot access directory") ∧
    (fs.rootOk = false →
      listFiles L fs true patterns s e = Except.ok []) ∧
    (∀ p, fs.mtimeOf p = none → (s.isSome || e.isSome) = true →
      ∀ (recursive : Bool) (fls : List String),
        listFiles L fs recursive patterns s e = Except.ok fls → p ∉ fls) ∧
    (∀ p, fs.mtimeOf p = none → (s.isSome || e.isSome) = true →
      ∀ recursive : Bool,
        listFiles L fs recursive patterns s e =
        listFiles L
          ⟨fs.rootOk, fs.walkFiles.filter (fun x => !(x == p)),
            fs.topEntries.filter (fun ent => !(ent.1 == p)), fs.mtimeOf⟩
          recursive patterns s e) := by
  have hrec : ∀ fs' : EnumFS, listFiles L fs' true patterns s e =
      Except.ok (listFilesRec L fs' patterns s e) := fun _ => rfl
  have hnon_ok : ∀ fs' : EnumFS, fs'.rootOk = true →
      listFiles L fs' false patterns s e =
      Except.ok ((fs'.topEntries.filter
        (fun ent => ent.2 && shouldIncludeFile L patterns ent.1 &&
          passesWindow fs'.mtimeOf ent.1 s e)).map (fun ent => ent.1)) := by
    intro fs' hroot
    simp [listFiles, hroot]
  have hnon_err : ∀ fs' : EnumFS, fs'.rootOk = false →
      listFiles L fs' false patterns s e =
      Except.error "Cannot access directory" := by
    intro fs' hroot
    simp [listFiles, hroot]
  refine ⟨hnon_err fs, ?_, ?_, ?_⟩
  · intro hroot
    rw [hrec fs, listFilesRec, hroot]
    rfl
  · intro p hm hw recursive fls hok hmem
    cases recursive with
    | true =>
        rw [hrec fs] at hok
        injection hok with hok
        subst hok
        rw [listFilesRec] at hmem
        have := (List.mem_filter.mp hmem).2
        rw [passesWindow_none fs.mtimeOf p s e hw hm, Bool.and_false] at this
        exact Bool.noConfusion this
    | false =>
        cases hroot : fs.rootOk with
        | false =>
            rw [hnon_err fs hroot] at hok
            exact Except.noConfusion hok
        | true =>
            rw [hnon_ok fs hroot] at hok
            injection hok with hok
            subst hok
            obtain ⟨ent, hent, hfst⟩ := List.mem_map.mp hmem
            have hcond := (List.mem_filter.mp hent).2
            have hpw : passesWindow fs.mtimeOf ent.1 s e = false := by
              rw [hfst]
              exact passesWindow_none fs.mtimeOf p s e hw hm
            rw [hpw, Bool.and_false] at hcond
            exact Bool.noConfusion hcond
  · intro p hm hw recursive
    cases recursive with
    | true =>
        rw [hrec, hrec, listFilesRec, listFilesRec]
        cases hroot : fs.rootOk with
        | false => rfl
        | true =>
            simp only [if_true]
            exact congrArg Except.ok (filter_drop_eq
              (fun x => shouldIncludeFile L patterns x &&
                passesWindow fs.mtimeOf x s e)
              (fun x => !(x == p))
              (fun x hq => by
                show (shouldIncludeFile L patterns x &&
                  passesWindow fs.mtimeOf x s e) = false
                have hxp : x = p := by simpa using hq
                subst hxp
                rw [passesWindow_none fs.mtimeOf x s e hw hm, Bool.and_false])
              fs.walkFiles)
    | false =>
        cases hroot : fs.rootOk with
        | false =>
            rw [hnon_err fs hroot, hnon_err _ rfl]
        | true =>
            rw [hnon_ok fs hroot, hnon_ok _ rfl]
            exact congrArg Except.ok (congrArg (List.map (fun ent => ent.1))
              (filter_drop_eq
                (fun ent : String × Bool => ent.2 &&
                  shouldIncludeFile L patterns ent.1 &&
                  passesWindow fs.mtimeOf ent.1 s e)
                (fun ent => !(ent.1 == p))
                (fun ent hq => by
                  show (ent.2 && shouldIncludeFile L patterns ent.1 &&
                    passesWindow fs.mtimeOf ent.1 s e) = false
                  have hxp : ent.1 = p := by simpa using hq
                  have hpwf : passesWindow fs.mtimeOf ent.1 s e = false := by
                    rw [hxp]
                    exact passesWindow_none fs.mtimeOf p s e hw hm
                  rw [hpwf, Bool.and_false])
                fs.topEntries))

/-- C8 (code bug): the `__init__` validation is a raw string
`startswith`, not a path-containment check. The folder
`/ragflow/mounted_data_evil` resolves *outside* the allowed base
`/ragflow/mounted_data` (it is a sibling whose name merely extends the
prefix string), yet construction accepts it — although the constructor's
own documentation says the folder "must be under" the allowed path, and
the claim (with the spec) requires construction to raise for every path
resolving outside. Genuine containment (`isUnderDir`) and genuine
traversal (`..`) are otherwise handled as the claim says: a folder under
the base is accepted and a `..` escape is rejected. -/
theorem startswith_accepts_sibling_outside_base :
    connectorInitAccepts evilFolderPath defaultAllowedBase = true ∧
    isUnderDir evilFolderPath defaultAllowedBase = false ∧
    connectorInitAccepts "/ragflow/mounted_data/docs".data defaultAllowedBase = true ∧
    isUnderDir "/ragflow/mounted_data/docs".data defaultAllowedBase = true ∧
    connectorInitAccepts "/ragflow/mounted_data/../etc".data defaultAllowedBase = false := by
  decide
